import Mathlib

/-!
Verification of the RAG repository's core text-processing logic against its
specification.  The Python sources (src/db_setup.py, src/streamlit_app.py,
src/agents/reasoner.py) are shallowly embedded: strings are `List Char` /
`String`, Python's `while` loops become fuel-bounded recursion (`none` =
the loop did not finish within the fuel), exceptions become `Except` /
`Option`, and the external vector store is a function from ids to stored
records.  Scan positions are naturals; Python's int subtraction appears as
truncated subtraction, which coincides with Python whenever positions stay
nonnegative (in particular whenever overlap ≤ chunk_size / 2, which covers
the defaults 1000/200 and every concrete input used below).
-/

set_option maxRecDepth 20000

namespace RagSpec

/-- The whitespace characters stripped by Python's `str.strip()` (ASCII part;
the sources only ever strip ASCII text). -/
def isPySpace (c : Char) : Bool :=
  c = ' ' || c = '\t' || c = '\n' || c = '\r' || c = '\x0b' || c = '\x0c'

/-- Python `s.strip()` on a character list: drop whitespace from both ends. -/
def stripList (l : List Char) : List Char :=
  ((l.dropWhile isPySpace).reverse.dropWhile isPySpace).reverse

/-- Python `s.strip()` at `String` level. -/
def pyStrip (s : String) : String := ⟨stripList s.data⟩

/-- Python slice `l[s:e]` for nonnegative bounds: clamps at both ends. -/
def pySlice (l : List Char) (s e : Nat) : List Char := (l.drop s).take (e - s)

def pyRfindAux (c : Char) : List Char → Nat → Int → Int
  | [], _, acc => acc
  | x :: xs, i, acc => pyRfindAux c xs (i + 1) (if x = c then (i : Int) else acc)

/-- Python `l.rfind(c)`: index of the last occurrence of `c`, `-1` if absent. -/
def pyRfind (l : List Char) (c : Char) : Int := pyRfindAux c l 0 (-1)

/-- One iteration of the `while` loop of `chunk_text` (src/db_setup.py,
lines 131-145): from the scan position `start` it yields the chunk that is
appended (already stripped, line 145) and the final `end` value of the
iteration (snapped to `start + break_point + 1` when the boundary-snap
condition `break_point > start + chunk_size // 2` of line 141 holds; note the
source compares the chunk-relative `rfind` index against that absolute
threshold).  The caller advances to `end - overlap` (line 146). -/
def chunkStep (text : List Char) (chunkSize start : Nat) : List Char × Nat :=
  let e := start + chunkSize
  let chunk := pySlice text start e
  if e < text.length then
    let lastPeriod := pyRfind chunk '.'
    let lastNewline := pyRfind chunk '\n'
    let breakPoint := max lastPeriod lastNewline
    if breakPoint > ((start + chunkSize / 2 : Nat) : Int) then
      (stripList (chunk.take (breakPoint.toNat + 1)), start + breakPoint.toNat + 1)
    else
      (stripList chunk, e)
  else
    (stripList chunk, e)

/-- The `while start < len(text)` loop of `chunk_text`, fuel-bounded:
`none` means the loop did not terminate within the fuel. -/
def chunkLoop (text : List Char) (chunkSize overlap : Nat) :
    Nat → Nat → List (List Char) → Option (List (List Char))
  | 0, _, _ => none
  | fuel + 1, start, chunks =>
    if start < text.length then
      let p := chunkStep text chunkSize start
      chunkLoop text chunkSize overlap fuel (p.2 - overlap) (chunks ++ [p.1])
    else
      some chunks

/-- `chunk_text(text, chunk_size, overlap)` from src/db_setup.py lines 123-148
on a character list.  A fuel of `text.length + 1` is enough whenever the scan
position strictly increases each iteration (proved below for
`1 ≤ chunk_size` and `overlap ≤ chunk_size / 2`). -/
def chunkTextL (text : List Char) (chunkSize overlap : Nat) : Option (List (List Char)) :=
  if text.length ≤ chunkSize then some [text]
  else chunkLoop text chunkSize overlap (text.length + 1) 0 []

/-- `chunk_text` at `String` level.  The Python call sites use the defaults
`chunk_size = 1000`, `overlap = 200`. -/
def chunkText (text : String) (chunkSize overlap : Nat) : Option (List String) :=
  (chunkTextL text.data chunkSize overlap).map (List.map String.mk)

/-- The same loop as `chunkLoop`, recording for each iteration the window
actually used: the pair of the scan position `start` and the final (possibly
snapped) `end`.  The chunk appended by the iteration is exactly the stripped
slice `text[start:end]` of its window (proved below). -/
def chunkWindowsLoop (text : List Char) (chunkSize overlap : Nat) :
    Nat → Nat → List (Nat × Nat) → Option (List (Nat × Nat))
  | 0, _, _ => none
  | fuel + 1, start, acc =>
    if start < text.length then
      chunkWindowsLoop text chunkSize overlap fuel
        ((chunkStep text chunkSize start).2 - overlap)
        (acc ++ [(start, (chunkStep text chunkSize start).2)])
    else some acc

/-- The sequence of windows used by `chunk_text`'s loop (meaningful for
`chunk_size < len(text)`, where the loop runs). -/
def chunkWindows (text : List Char) (chunkSize overlap : Nat) : Option (List (Nat × Nat)) :=
  chunkWindowsLoop text chunkSize overlap (text.length + 1) 0 []

/-! ### Decimal rendering of naturals (Python `str(i)` / f-string interpolation) -/

/-- The decimal digit character for `d` (`d ≤ 9` at every use). -/
def digitChar : Nat → Char
  | 0 => '0' | 1 => '1' | 2 => '2' | 3 => '3' | 4 => '4'
  | 5 => '5' | 6 => '6' | 7 => '7' | 8 => '8' | _ => '9'

/-- Decimal digits, most significant first, as structural recursion on a fuel
bound (`n` itself bounds the number of divisions by 10, so `n + 1` fuel always
suffices; fuel-running-out is unreachable and returns `[]`). -/
def natDigitsAux : Nat → Nat → List Char
  | 0, _ => []
  | fuel + 1, n =>
    if n < 10 then [digitChar n]
    else natDigitsAux fuel (n / 10) ++ [digitChar (n % 10)]

/-- Decimal digits of `n`, most significant first (Python `str(n)` for `n ≥ 0`). -/
def natDigits (n : Nat) : List Char := natDigitsAux (n + 1) n

/-- Python `str(n)` for a natural `n`. -/
def pyStr (n : Nat) : String := ⟨natDigits n⟩

/-! ### The question splitter (src/streamlit_app.py lines 43-74) -/

/-- Python `c.isdigit()` restricted to ASCII (the characters the splitter
actually compares against). -/
def isDigitCh (c : Char) : Bool := '0' ≤ c && c ≤ '9'

/-- Membership in the marker list `[')', '.', '-', ' ']` of line 67. -/
def isMarkerCh (c : Char) : Bool := c = ')' || c = '.' || c = '-' || c = ' '

/-- Split a character list at every occurrence of `sep` (Python `splitlines`
for the newline-only texts the app handles; trailing-empty differences are
erased by the empty-line filter that follows every use). -/
def splitOnChar (sep : Char) : List Char → List (List Char)
  | [] => [[]]
  | c :: t =>
    if c = sep then [] :: splitOnChar sep t
    else
      match splitOnChar sep t with
      | [] => [[c]]
      | l :: ls => (c :: l) :: ls

/-- The numbering-marker test of line 56:
`len(ln) > 2 and (ln[0].isdigit() and (ln[1] in ".)" or (ln[1] == ' ' and ln[2] in "-.")))`. -/
def numberedLineCheck (ln : List Char) : Bool :=
  decide (2 < ln.length) && isDigitCh (ln.getD 0 ' ') &&
    (ln.getD 1 ' ' = '.' || ln.getD 1 ' ' = ')' ||
      (ln.getD 1 ' ' = ' ' && (ln.getD 2 ' ' = '-' || ln.getD 2 ' ' = '.')))

/-- The per-line body of the splitter's `for` loop (lines 55-73): a matching
line has its leading digits, then its leading marker characters stripped
(the two `while` loops of lines 64-68), is trimmed, and is dropped when the
cleanup leaves nothing; a non-matching line is kept as it is. -/
def processLine (ln : List Char) : Option (List Char) :=
  if numberedLineCheck ln then
    let cleaned := stripList ((ln.dropWhile isDigitCh).dropWhile isMarkerCh)
    if cleaned.isEmpty then none else some cleaned
  else some ln

/-- `split_user_questions` (src/streamlit_app.py lines 43-74) on a character
list: empty input gives `[]`; otherwise the non-empty stripped lines are each
processed by `processLine`. -/
def splitUserQuestionsL (text : List Char) : List (List Char) :=
  if text.isEmpty then []
  else
    let lines := ((splitOnChar '\n' text).map stripList).filter (fun l => !l.isEmpty)
    lines.filterMap processLine

/-- `split_user_questions` at `String` level. -/
def splitUserQuestions (text : String) : List String :=
  (splitUserQuestionsL text.data).map String.mk

/-! ### The Reasoner prompt (src/agents/reasoner.py lines 9-22) -/

/-- A retrieval result as the Reasoner consumes it (`p.get('text','')`;
the other Passage fields never enter the prompt). -/
structure Passage where
  id : String
  text : String
deriving DecidableEq

/-- The fixed instruction part of the Reasoner prompt (reasoner.py
lines 16-20, the text before the f-string interpolations). -/
def reasonerInstructionText : String :=
  "You are a careful analyst. Given the user question and retrieved passages, extract only the most relevant facts, remove redundancies, and produce a concise but complete bullet list of key points grounded in the passages. If information is missing, say so and state reasonable assumptions. Ensure coverage of all major aspects needed for a self-contained final answer.\n\n"

/-- The `for idx, p in enumerate(passages, start=1)` loop of lines 11-13,
building one `[Passage idx]` block per passage. -/
def reasonerBlocksLoop (idx : Nat) : List Passage → List String
  | [] => []
  | p :: ps =>
    ("[Passage " ++ pyStr idx ++ "]\n" ++ p.text ++ "\n") :: reasonerBlocksLoop (idx + 1) ps

/-- `context = "\n".join(context_blocks)` (line 14). -/
def reasonerContext (passages : List Passage) : String :=
  String.intercalate "\n" (reasonerBlocksLoop 1 passages)

/-- The whole prompt built by `ReasonerAgent.reason` (lines 16-22). -/
def reasonPrompt (question : String) (passages : List Passage) : String :=
  reasonerInstructionText ++ "Question: " ++ question ++ "\n\nPassages:\n" ++
    reasonerContext passages ++ "\n\nOutput:"

/-- Number of occurrences of `needle` as a contiguous substring of `hay`. -/
def countOccur (needle : List Char) : List Char → Nat
  | [] => if needle.isEmpty then 1 else 0
  | c :: t => (if needle.isPrefixOf (c :: t) then 1 else 0) + countOccur needle t

/-- Index of the first occurrence of `needle` in `hay` (`hay.length` when,
as never happens at the uses below, `needle` does not occur). -/
def firstOccur (needle : List Char) : List Char → Nat
  | [] => 0
  | c :: t => if needle.isPrefixOf (c :: t) then 0 else 1 + firstOccur needle t

/-! ### Document ingestion (src/db_setup.py lines 151-198) -/

/-- `os.path.basename` for the POSIX paths the app produces: the segment
after the last `/`. -/
def osBasename (p : String) : String := ⟨(splitOnChar '/' p.data).getLastD []⟩

/-- `os.path.splitext(file_path)[1].lower()`: the extension including its dot,
empty when the basename has no dot after a non-dot character, lowercased. -/
def pyFileExt (p : String) : String :=
  let l := p.data
  let sepIdx := pyRfind l '/'
  let dotIdx := pyRfind l '.'
  if sepIdx < dotIdx &&
      (pySlice l (sepIdx + 1).toNat dotIdx.toNat).any (fun c => !(c = '.')) then
    ⟨(l.drop dotIdx.toNat).map Char.toLower⟩
  else ""

/-- One uploaded file, as ingestion sees it: its path and the outcome of
`extract_text_from_file` (an `error` is the exception the `try` of
lines 162-188 catches; chunking itself never raises). -/
structure FileEntry where
  path : String
  extracted : Except String String

/-- The metadata dict of lines 177-182. -/
structure ChunkMeta where
  source : String
  chunkIndex : Nat
  totalChunks : Nat
  fileType : String
deriving DecidableEq

/-- One element of `all_docs` (lines 174-183). -/
structure ChunkDoc where
  id : String
  text : String
  metadata : ChunkMeta
deriving DecidableEq

/-- The chunk id `f"{base_doc_id}_{os.path.basename(file_path)}_{i}"` of
line 173. -/
def mkChunkId (baseDocId sourceName : String) (i : Nat) : String :=
  baseDocId ++ "_" ++ sourceName ++ "_" ++ pyStr i

/-- The per-file body of the ingestion loop (lines 161-188): an extraction
error is caught and contributes nothing, a file whose text strips to empty is
skipped (line 165), and otherwise one `ChunkDoc` per chunk of
`chunk_text(text)` (defaults 1000/200) is produced; `none` only if the
chunking loop were to run out of fuel, which the defaults exclude. -/
def ingestFile (baseDocId : String) (f : FileEntry) : Option (List ChunkDoc) :=
  match f.extracted with
  | .error _ => some []
  | .ok text =>
    if (stripList text.data).isEmpty then some []
    else
      (chunkText text 1000 200).map fun chunks =>
        chunks.enum.map fun p =>
          { id := mkChunkId baseDocId (osBasename f.path) p.1
            text := p.2
            metadata :=
              { source := osBasename f.path
                chunkIndex := p.1
                totalChunks := chunks.length
                fileType := pyFileExt f.path } }

/-- The `for file_path in file_paths` loop of lines 161-188, accumulating
`all_docs` in order. -/
def ingestDocsList (baseDocId : String) : List FileEntry → Option (List ChunkDoc)
  | [] => some []
  | f :: fs => do
    let d ← ingestFile baseDocId f
    let rest ← ingestDocsList baseDocId fs
    pure (d ++ rest)

/-- `ingest_uploaded_documents(file_paths, base_doc_id)` (lines 151-198):
returns the count `doc_count` (one increment per chunk, line 184) together
with the batch `all_docs` handed to the single `collection.upsert` call of
line 196 (made only when the batch is non-empty, line 190). -/
def ingestUploadedDocuments (files : List FileEntry) (baseDocId : String) :
    Option (Nat × List ChunkDoc) :=
  (ingestDocsList baseDocId files).map fun docs => (docs.length, docs)

/-- The vector store restricted to what `upsert` touches: a map from id to
the stored document text and metadata. -/
def Store := String → Option (String × ChunkMeta)

/-- `collection.upsert(ids, documents, metadatas)`: insert-or-replace by id,
later entries of the same call overwriting earlier ones. -/
def applyUpsert (store : Store) (docs : List ChunkDoc) : Store :=
  docs.foldl (fun st d => fun k => if k = d.id then some (d.text, d.metadata) else st k) store

/-! ### The answer pipeline (src/streamlit_app.py lines 170-207 and 452-493) -/

/-- The three stage collaborators, abstracted at the boundary the spec draws:
each stage either returns its value or raises (`Except.error` carries
`str(e)`). -/
structure Agents where
  retrieve : String → Except String (List Passage)
  reason : String → List Passage → Except String String
  respond : String → String → Except String String

/-- One observable stage invocation, tagged with the sub-question it was
called on. -/
inductive StageCall where
  | retrieveC (q : String)
  | reasonC (q : String)
  | respondC (q : String)
deriving DecidableEq

/-- The `formatting_note` appended to the reasoning summary (lines 184-187). -/
def formattingNote : String :=
  "\n\nFormatting requirements: Provide a precise, accurate answer in well-aligned markdown. Keep it to ≤ 8 bullet points, use short headings if needed, avoid redundancy, and keep it crisp."

/-- The result dict of lines 194-199. -/
structure PipelineResult where
  question : String
  retrieved : List Passage
  reasoned : String
  answer : String
deriving DecidableEq

/-- `str.lower()` (ASCII, as the matched substrings are ASCII). -/
def toLowerS (s : String) : String := ⟨s.data.map Char.toLower⟩

/-- Python `needle in hay` on strings. -/
def containsSub (needle : List Char) : List Char → Bool
  | [] => needle.isEmpty
  | c :: t => needle.isPrefixOf (c :: t) || containsSub needle t

/-- The `except` clause of `run_rag_pipeline` (lines 200-207): the caught
exception's text is classified by substring matching and re-raised. -/
def mapPipelineError (e : String) : String :=
  if containsSub "Connection refused".data e.data ||
      containsSub "Failed to establish a new connection".data e.data then
    "❌ Cannot connect to Ollama. Please ensure Ollama is running with 'ollama serve'"
  else if containsSub "model".data (toLowerS e).data &&
      containsSub "not found".data (toLowerS e).data then
    "❌ Required Ollama model not found. Please run: ollama pull mistral && ollama pull llama2"
  else "❌ Error in RAG pipeline: " ++ e

/-- `run_rag_pipeline(question)` (lines 170-207): retrieve, then reason, then
respond, each stage's failure propagating (after the error-message mapping of
the `except` clause); alongside the `Except` outcome the list of stage
invocations actually performed is returned, in order. -/
def runRagPipeline (ag : Agents) (question : String) :
    List StageCall × Except String PipelineResult :=
  match ag.retrieve question with
  | .error e => ([.retrieveC question], .error (mapPipelineError e))
  | .ok retrieved =>
    match ag.reason question retrieved with
    | .error e => ([.retrieveC question, .reasonC question], .error (mapPipelineError e))
    | .ok reasoned =>
      match ag.respond question (reasoned ++ formattingNote) with
      | .error e =>
        ([.retrieveC question, .reasonC question, .respondC question],
          .error (mapPipelineError e))
      | .ok answer =>
        ([.retrieveC question, .reasonC question, .respondC question],
          .ok { question := question, retrieved := retrieved,
                reasoned := reasoned ++ formattingNote, answer := answer })

/-- A chat message (`{"role": ..., "content": ...}`). -/
structure Message where
  role : String
  content : String
deriving DecidableEq

/-- The user message the multi-question branch appends before running any
stage (lines 473-476): the sub-questions renumbered `1.`, `2.`, .... -/
def mkNumberedUserContent (subs : List String) : String :=
  String.intercalate "\n" (subs.enum.map fun p => pyStr (p.1 + 1) ++ ". " ++ p.2)

/-- The `for i, q in enumerate(sub_questions, start=1)` loop of lines 477-480:
runs the pipeline per sub-question, collecting the markdown pieces; the first
failure aborts the loop and propagates, discarding every piece collected so
far.  The accumulated stage-call trace is returned in either case. -/
def multiLoop (ag : Agents) : Nat → List String → List StageCall × Except String (List String)
  | _, [] => ([], .ok [])
  | i, q :: qs =>
    let r := runRagPipeline ag q
    match r.2 with
    | .error e => (r.1, .error e)
    | .ok res =>
      let rest := multiLoop ag (i + 1) qs
      (r.1 ++ rest.1,
        match rest.2 with
        | .error e => .error e
        | .ok pieces => .ok (("\n### Q" ++ pyStr i ++ ": " ++ q) :: res.answer :: pieces))

/-- The send-button handler of `main` (lines 452-493) once a submission is
dispatched (the `db_initialized` guard of line 453 has passed), restricted to
its observable effects: the stage calls made, the chat messages appended, and
the `st.error` text shown when a stage raised.  A single (or empty) split
runs the pipeline once on the original input and appends the user/assistant
pair only on success; a multi split first appends the renumbered user
message, then runs the loop, appending the combined assistant message only
when every sub-question succeeded. -/
def processSend (ag : Agents) (question : String) (messages : List Message) :
    List StageCall × List Message × Option String :=
  let subs := splitUserQuestions question
  if subs.length ≤ 1 then
    let r := runRagPipeline ag question
    match r.2 with
    | .ok res =>
      (r.1, messages ++ [⟨"user", question⟩, ⟨"assistant", res.answer⟩], none)
    | .error e => (r.1, messages, some ("❌ Error processing question: " ++ e))
  else
    let msgs1 := messages ++ [⟨"user", mkNumberedUserContent subs⟩]
    let r := multiLoop ag 1 subs
    match r.2 with
    | .ok pieces =>
      (r.1,
        msgs1 ++ [⟨"assistant",
          String.intercalate "\n\n" ("### ✅ Answers (Multiple Questions)" :: pieces)⟩],
        none)
    | .error e => (r.1, msgs1, some ("❌ Error processing question: " ++ e))

/-- The canonical full stage-call sequence for a list of sub-questions:
retrieve, reason, respond for each in order (spec §8, orchestrator
sequencing). -/
def canonicalCalls (subs : List String) : List StageCall :=
  subs.flatMap fun q => [.retrieveC q, .reasonC q, .respondC q]

/-! ### Spec-side definitions, for the amended claims that compare source
behaviour against a statement written from the specification's words -/

/-- The splitter's per-line behaviour as the amended claim C3 states it:
a line is a numbered item exactly when it is longer than two characters,
starts with a digit, and its second character is `.` or `)`, or its second
character is a space whose successor is `-` or `.`. -/
def splitLineSpec (ln : List Char) : Option (List Char) :=
  match ln with
  | c0 :: c1 :: c2 :: _ =>
    if isDigitCh c0 && (c1 = '.' || c1 = ')' || (c1 = ' ' && (c2 = '-' || c2 = '.'))) then
      let cleaned := stripList ((ln.dropWhile isDigitCh).dropWhile isMarkerCh)
      if cleaned.isEmpty then none else some cleaned
    else some ln
  | _ => some ln

/-- The number of chunks a file contributes to an ingestion batch: zero for a
failed extraction or a whitespace-only text, the `chunk_text` count otherwise. -/
def fileChunkCount (f : FileEntry) : Nat :=
  match f.extracted with
  | .error _ => 0
  | .ok t =>
    if (stripList t.data).isEmpty then 0
    else ((chunkText t 1000 200).getD []).length

/-- Numeric value of a decimal digit character (proof device for the
injectivity of `pyStr`). -/
def digitVal (c : Char) : Nat := c.toNat - 48

/-- Value of a decimal digit string (proof device: evaluating `natDigits`
back to its number). -/
def digitsVal (l : List Char) : Nat := l.foldl (fun a c => a * 10 + digitVal c) 0

/-! ### Concrete inputs used by witnesses and counterexamples -/

/-- A healthy text file under directory `a`. -/
def fileA : FileEntry := ⟨"a/f.txt", .ok "hello"⟩

/-- A healthy text file under directory `b` with the same basename as
`fileA`. -/
def fileB : FileEntry := ⟨"b/f.txt", .ok "world"⟩

/-- A healthy file with a distinct basename. -/
def fileC : FileEntry := ⟨"b/g.txt", .ok "world"⟩

/-- A file whose extraction raised. -/
def fileBad : FileEntry := ⟨"x/bad.pdf", .error "boom"⟩

/-- A file whose extracted text is whitespace only. -/
def fileBlank : FileEntry := ⟨"x/e.txt", .ok "   "⟩

/-- Stub agents whose Responder raises exactly on the sub-question `bar`
(sub-question 2 of 2 of the witness input). -/
def agentsFailBar : Agents :=
  { retrieve := fun _ => .ok []
    reason := fun _ _ => .ok "notes"
    respond := fun q _ => if q = "bar" then .error "boom" else .ok "ans" }

/-- The empty vector store. -/
def emptyStore : Store := fun _ => none

/-! ## Helper lemmas -/

theorem pyRfindAux_lt (c : Char) :
    ∀ (l : List Char) (i : Nat) (acc : Int), acc < (i : Int) →
      pyRfindAux c l i acc < (i : Int) + l.length
  | [], i, acc, h => by simpa [pyRfindAux] using h
  | x :: xs, i, acc, h => by
    have h1 : (if x = c then (i : Int) else acc) < ((i + 1 : Nat) : Int) := by
      split <;> push_cast <;> omega
    have h2 := pyRfindAux_lt c xs (i + 1) _ h1
    simpa [pyRfindAux, Nat.add_comm, Nat.add_assoc, Nat.add_left_comm] using by
      push_cast at h2 ⊢; omega

theorem pyRfind_lt (l : List Char) (c : Char) : pyRfind l c < (l.length : Int) := by
  have := pyRfindAux_lt c l 0 (-1) (by omega)
  simpa [pyRfind] using this

theorem pyRfindAux_of_not_mem (c : Char) :
    ∀ (l : List Char) (i : Nat) (acc : Int), (∀ x ∈ l, x ≠ c) →
      pyRfindAux c l i acc = acc
  | [], _, _, _ => rfl
  | x :: xs, i, acc, h => by
    have hx : ¬ x = c := h x (by simp)
    have := pyRfindAux_of_not_mem c xs (i + 1) acc fun y hy => h y (by simp [hy])
    simpa [pyRfindAux, hx] using this

theorem pyRfind_of_not_mem {l : List Char} {c : Char} (h : ∀ x ∈ l, x ≠ c) :
    pyRfind l c = -1 :=
  pyRfindAux_of_not_mem c l 0 (-1) h

theorem stripList_eq_rdropWhile (l : List Char) :
    stripList l = (l.dropWhile isPySpace).rdropWhile isPySpace := rfl

theorem stripList_prefix_dropWhile (l : List Char) :
    stripList l <+: l.dropWhile isPySpace := by
  rw [stripList_eq_rdropWhile]
  exact List.rdropWhile_prefix isPySpace _

theorem stripList_length_le (l : List Char) : (stripList l).length ≤ l.length := by
  have h1 := (stripList_prefix_dropWhile l).length_le
  have h2 : (l.dropWhile isPySpace).length ≤ l.length :=
    (List.dropWhile_suffix isPySpace).length_le
  omega

theorem stripList_idem (l : List Char) : stripList (stripList l) = stripList l := by
  have hfix : (stripList l).dropWhile isPySpace = stripList l := by
    rw [List.dropWhile_eq_self_iff]
    intro hl
    have hpre := stripList_prefix_dropWhile l
    have hlen : 0 < (l.dropWhile isPySpace).length :=
      Nat.lt_of_lt_of_le hl hpre.length_le
    have hget : (stripList l).get ⟨0, hl⟩ = (l.dropWhile isPySpace).get ⟨0, hlen⟩ := by
      simpa using hpre.getElem (by omega)
    rw [hget]
    have hfix2 : (l.dropWhile isPySpace).dropWhile isPySpace = l.dropWhile isPySpace :=
      List.dropWhile_idempotent isPySpace l
    exact (List.dropWhile_eq_self_iff.mp hfix2) hlen
  rw [stripList_eq_rdropWhile (stripList l), hfix, stripList_eq_rdropWhile l,
    List.rdropWhile_idempotent]

theorem pySlice_length_le (l : List Char) (s e : Nat) : (pySlice l s e).length ≤ e - s := by
  simp [pySlice]

theorem chunkStep_snd_le (text : List Char) (c s : Nat) : (chunkStep text c s).2 ≤ s + c := by
  simp only [chunkStep]
  split
  · split
    · rename_i hbp
      have h1 := pyRfind_lt (pySlice text s (s + c)) '.'
      have h2 := pyRfind_lt (pySlice text s (s + c)) '\n'
      have h3 := pySlice_length_le text s (s + c)
      simp only [sup_lt_iff] at *
      omega
    · omega
  · omega

theorem chunkStep_snd_gt (text : List Char) (c s : Nat) (hc : 1 ≤ c) :
    s + c / 2 < (chunkStep text c s).2 := by
  simp only [chunkStep]
  split
  · split
    · rename_i hbp
      omega
    · omega
  · omega

theorem chunkStep_fst_eq (text : List Char) (c s : Nat) :
    (chunkStep text c s).1 = stripList (pySlice text s (chunkStep text c s).2) := by
  simp only [chunkStep]
  split
  · split
    · rename_i hbp
      dsimp only
      congr 1
      have h1 := pyRfind_lt (pySlice text s (s + c)) '.'
      have h2 := pyRfind_lt (pySlice text s (s + c)) '\n'
      have h3 := pySlice_length_le text s (s + c)
      simp only [sup_lt_iff] at h1 h2
      set bp := max (pyRfind (pySlice text s (s + c)) '.')
        (pyRfind (pySlice text s (s + c)) '\n') with hbpdef
      have hbpc : bp.toNat + 1 ≤ c := by
        have hm : bp < ((pySlice text s (s + c)).length : Int) := by
          rw [hbpdef]; exact max_lt (pyRfind_lt _ _) (pyRfind_lt _ _)
        omega
      show (pySlice text s (s + c)).take (bp.toNat + 1) = pySlice text s (s + bp.toNat + 1)
      simp only [pySlice, List.take_take]
      congr 1
      omega
    · rfl
  · rfl

theorem chunkStep_fst_length_le (text : List Char) (c s : Nat) :
    (chunkStep text c s).1.length ≤ c := by
  rw [chunkStep_fst_eq]
  have h1 := stripList_length_le (pySlice text s (chunkStep text c s).2)
  have h2 := pySlice_length_le text s (chunkStep text c s).2
  have h3 := chunkStep_snd_le text c s
  omega

theorem chunkLoop_isSome (text : List Char) (c o : Nat) (hc : 1 ≤ c) (ho : o ≤ c / 2) :
    ∀ (fuel s : Nat) (acc : List (List Char)), text.length - s < fuel →
      (chunkLoop text c o fuel s acc).isSome
  | 0, s, _, h => by omega
  | fuel + 1, s, acc, h => by
    unfold chunkLoop
    split
    · rename_i hs
      apply chunkLoop_isSome text c o hc ho fuel _ _
      have h1 := chunkStep_snd_gt text c s hc
      omega
    · simp

theorem chunkTextL_isSome (text : List Char) (c o : Nat) (hc : 1 ≤ c) (ho : o ≤ c / 2) :
    (chunkTextL text c o).isSome := by
  unfold chunkTextL
  split
  · simp
  · exact chunkLoop_isSome text c o hc ho (text.length + 1) 0 [] (by omega)

theorem chunkText_isSome (text : String) (c o : Nat) (hc : 1 ≤ c) (ho : o ≤ c / 2) :
    (chunkText text c o).isSome := by
  unfold chunkText
  have := chunkTextL_isSome text.data c o hc ho
  rcases hx : chunkTextL text.data c o with _ | cs
  · rw [hx] at this; simp at this
  · simp

theorem chunkWindowsLoop_acc (text : List Char) (c o : Nat) :
    ∀ (fuel s : Nat) (acc : List (Nat × Nat)),
      chunkWindowsLoop text c o fuel s acc =
        (chunkWindowsLoop text c o fuel s []).map (acc ++ ·)
  | 0, _, _ => rfl
  | fuel + 1, s, acc => by
    unfold chunkWindowsLoop
    split
    · rw [chunkWindowsLoop_acc text c o fuel _ (acc ++ [(s, (chunkStep text c s).2)]),
        chunkWindowsLoop_acc text c o fuel _ ([] ++ [(s, (chunkStep text c s).2)])]
      rw [Option.map_map]
      congr 1
      funext ws
      simp
    · simp

theorem chunkLoop_eq_windows (text : List Char) (c o : Nat) :
    ∀ (fuel s : Nat) (accW : List (Nat × Nat)),
      chunkLoop text c o fuel s (accW.map fun p => stripList (pySlice text p.1 p.2)) =
        (chunkWindowsLoop text c o fuel s accW).map
          (List.map fun p => stripList (pySlice text p.1 p.2))
  | 0, _, _ => rfl
  | fuel + 1, s, accW => by
    unfold chunkLoop chunkWindowsLoop
    dsimp only
    split
    · have hmap : accW.map (fun p => stripList (pySlice text p.1 p.2)) ++
          [(chunkStep text c s).1] =
          (accW ++ [(s, (chunkStep text c s).2)]).map
            (fun p => stripList (pySlice text p.1 p.2)) := by
        rw [List.map_append]
        simp [chunkStep_fst_eq text c s]
      rw [hmap, chunkLoop_eq_windows text c o fuel _ (accW ++ [(s, (chunkStep text c s).2)])]
    · simp

theorem chunkTextL_eq_windows (text : List Char) (c o : Nat) (h : c < text.length) :
    chunkTextL text c o =
      (chunkWindows text c o).map (List.map fun p => stripList (pySlice text p.1 p.2)) := by
  unfold chunkTextL chunkWindows
  rw [if_neg (by omega)]
  simpa using chunkLoop_eq_windows text c o (text.length + 1) 0 []

theorem chunkWindowsLoop_invariant (text : List Char) (c o : Nat) :
    ∀ (fuel s : Nat) (ws : List (Nat × Nat)),
      chunkWindowsLoop text c o fuel s [] = some ws →
      (∀ p ∈ ws, p.1 < text.length ∧ p.2 = (chunkStep text c p.1).2) ∧
      (∀ h : ws ≠ [], (ws.head h).1 = s) ∧
      List.Chain' (fun p q => q.1 = p.2 - o) ws
  | 0, _, _, h => by simp [chunkWindowsLoop] at h
  | fuel + 1, s, ws, h => by
    unfold chunkWindowsLoop at h
    split at h
    · rename_i hs
      rw [chunkWindowsLoop_acc] at h
      rcases hx : chunkWindowsLoop text c o fuel ((chunkStep text c s).2 - o) [] with _ | tail
      · rw [hx] at h; simp at h
      · rw [hx] at h
        simp only [Option.map_some', List.nil_append, List.singleton_append,
          Option.some.injEq] at h
        obtain ⟨hmem, hhead, hchain⟩ := chunkWindowsLoop_invariant text c o fuel _ tail hx
        subst h
        refine ⟨?_, ?_, ?_⟩
        · intro p hp
          rcases List.mem_cons.mp hp with h1 | h1
          · subst h1; exact ⟨hs, rfl⟩
          · exact hmem p h1
        · intro _; rfl
        · cases tail with
          | nil => simp
          | cons q t =>
            refine List.Chain'.cons ?_ hchain
            simpa using hhead (by simp)
    · rename_i hs
      simp only [Option.some.injEq] at h
      subst h
      refine ⟨by simp, by simp, by simp⟩

theorem digitsVal_append (l : List Char) (c : Char) :
    digitsVal (l ++ [c]) = digitsVal l * 10 + digitVal c := by
  simp [digitsVal, List.foldl_append]

theorem digitVal_digitChar : ∀ d < 10, digitVal (digitChar d) = d := by decide

theorem digitsVal_natDigitsAux :
    ∀ (fuel n : Nat), n < fuel → digitsVal (natDigitsAux fuel n) = n
  | 0, _, h => by omega
  | fuel + 1, n, h => by
    unfold natDigitsAux
    split
    · rename_i h10
      simpa [digitsVal] using digitVal_digitChar n h10
    · rename_i h10
      rw [digitsVal_append]
      have hdiv : n / 10 < n := Nat.div_lt_self (by omega) (by omega)
      rw [digitsVal_natDigitsAux fuel (n / 10) (by omega)]
      rw [digitVal_digitChar (n % 10) (by omega)]
      have := Nat.div_add_mod n 10
      omega

theorem digitsVal_natDigits (n : Nat) : digitsVal (natDigits n) = n :=
  digitsVal_natDigitsAux (n + 1) n (by omega)

theorem natDigits_inj {a b : Nat} (h : natDigits a = natDigits b) : a = b := by
  have ha := digitsVal_natDigits a
  rw [h, digitsVal_natDigits b] at ha
  omega

theorem digitChar_isDigit (d : Nat) : isDigitCh (digitChar d) = true := by
  rcases d with _ | _ | _ | _ | _ | _ | _ | _ | _ | d <;> rfl

theorem natDigitsAux_digits :
    ∀ (fuel n : Nat), ∀ c ∈ natDigitsAux fuel n, isDigitCh c = true
  | 0, n => by simp [natDigitsAux]
  | fuel + 1, n => by
    unfold natDigitsAux
    split
    · intro c hc
      rw [List.mem_singleton.mp hc]
      exact digitChar_isDigit n
    · intro c hc
      rcases List.mem_append.mp hc with h1 | h1
      · exact natDigitsAux_digits fuel (n / 10) c h1
      · rw [List.mem_singleton.mp h1]
        exact digitChar_isDigit (n % 10)

theorem natDigits_no_underscore (n : Nat) : '_' ∉ natDigits n := by
  intro hmem
  have := natDigitsAux_digits (n + 1) n '_' hmem
  exact absurd this (by decide)

theorem append_marker_inj (u1 : List Char) :
    ∀ (u2 v1 v2 : List Char), '_' ∉ u1 → '_' ∉ u2 →
      u1 ++ '_' :: v1 = u2 ++ '_' :: v2 → u1 = u2 ∧ v1 = v2 := by
  induction u1 with
  | nil =>
    intro u2 v1 v2 _ h2 h
    cases u2 with
    | nil => simpa using h
    | cons d t =>
      simp only [List.nil_append, List.cons_append, List.cons.injEq] at h
      exfalso
      apply h2
      rw [h.1]
      exact List.mem_cons_self d t
  | cons c t ih =>
    intro u2 v1 v2 h1 h2 h
    cases u2 with
    | nil =>
      simp only [List.cons_append, List.nil_append, List.cons.injEq] at h
      exfalso
      apply h1
      rw [← h.1]
      exact List.mem_cons_self c t
    | cons d t2 =>
      simp only [List.cons_append, List.cons.injEq] at h
      obtain ⟨hcd, ht⟩ := h
      have hrec := ih t2 v1 v2 (fun hm => h1 (by simp [hm])) (fun hm => h2 (by simp [hm])) ht
      exact ⟨by rw [hcd, hrec.1], hrec.2⟩

theorem mkChunkId_data (base b : String) (i : Nat) :
    (mkChunkId base b i).data = base.data ++ '_' :: (b.data ++ '_' :: natDigits i) := by
  show (base ++ "_" ++ b ++ "_" ++ pyStr i).data = _
  rw [String.data_append, String.data_append, String.data_append, String.data_append]
  show base.data ++ ['_'] ++ b.data ++ ['_'] ++ natDigits i = _
  simp

theorem mkChunkId_inj {base b1 b2 : String} {i1 i2 : Nat}
    (h : mkChunkId base b1 i1 = mkChunkId base b2 i2) : b1 = b2 ∧ i1 = i2 := by
  have hd := congrArg String.data h
  rw [mkChunkId_data, mkChunkId_data] at hd
  have hd2 : b1.data ++ '_' :: natDigits i1 = b2.data ++ '_' :: natDigits i2 :=
    List.cons_injective (List.append_cancel_left hd)
  have hrev : (natDigits i1).reverse ++ '_' :: b1.data.reverse =
      (natDigits i2).reverse ++ '_' :: b2.data.reverse := by
    have := congrArg List.reverse hd2
    simpa [List.reverse_append] using this
  have hsplit := append_marker_inj (natDigits i1).reverse (natDigits i2).reverse
    b1.data.reverse b2.data.reverse
    (fun hm => natDigits_no_underscore i1 (List.mem_reverse.mp hm))
    (fun hm => natDigits_no_underscore i2 (List.mem_reverse.mp hm)) hrev
  constructor
  · have hb : b1.data = b2.data := by
      have := congrArg List.reverse hsplit.2
      simpa using this
    cases b1; cases b2
    exact congrArg String.mk (by simpa using hb)
  · apply natDigits_inj
    have := congrArg List.reverse hsplit.1
    simpa using this

theorem applyUpsert_not_mem (docs : List ChunkDoc) :
    ∀ (st : Store) (k : String), k ∉ docs.map (·.id) → applyUpsert st docs k = st k := by
  induction docs with
  | nil => intro st k _; rfl
  | cons d ds ih =>
    intro st k hk
    have hk1 : k ≠ d.id := fun h => hk (by simp [h])
    have hk2 : k ∉ ds.map (·.id) := fun h => hk (by simp [h])
    show applyUpsert _ ds k = st k
    rw [ih _ k hk2]
    simp [hk1]

theorem applyUpsert_mem (docs : List ChunkDoc) :
    ∀ (st1 st2 : Store) (k : String), k ∈ docs.map (·.id) →
      applyUpsert st1 docs k = applyUpsert st2 docs k := by
  induction docs with
  | nil => intro _ _ _ h; simp at h
  | cons d ds ih =>
    intro st1 st2 k hk
    show applyUpsert _ ds k = applyUpsert _ ds k
    by_cases hmem : k ∈ ds.map (·.id)
    · exact ih _ _ k hmem
    · have hkd : k = d.id := by
        rcases (by simpa using hk : k = d.id ∨ ∃ a ∈ ds, a.id = k) with h | ⟨a, ha, hak⟩
        · exact h
        · exact absurd (List.mem_map.mpr ⟨a, ha, hak⟩) hmem
      rw [applyUpsert_not_mem ds _ k hmem, applyUpsert_not_mem ds _ k hmem]
      simp [hkd]

theorem applyUpsert_idem (st : Store) (docs : List ChunkDoc) :
    applyUpsert (applyUpsert st docs) docs = applyUpsert st docs := by
  funext k
  by_cases hmem : k ∈ docs.map (·.id)
  · exact applyUpsert_mem docs _ st k hmem
  · rw [applyUpsert_not_mem docs _ k hmem, applyUpsert_not_mem docs st k hmem]

theorem ingestFile_isSome (base : String) (f : FileEntry) : (ingestFile base f).isSome := by
  rcases hfe : f.extracted with e | t
  · simp [ingestFile, hfe]
  · have h1 := chunkText_isSome t 1000 200 (by omega) (by omega)
    rcases hx : chunkText t 1000 200 with _ | cs
    · rw [hx] at h1; simp at h1
    · unfold ingestFile
      rw [hfe]
      dsimp only
      split
      · simp
      · rw [hx]; simp

theorem ingestDocsList_eq (base : String) (files : List FileEntry) :
    ingestDocsList base files = some (files.flatMap fun f => (ingestFile base f).getD []) := by
  induction files with
  | nil => rfl
  | cons f fs ih =>
    have h1 := ingestFile_isSome base f
    rcases hx : ingestFile base f with _ | d
    · rw [hx] at h1; simp at h1
    · show (do
        let d ← ingestFile base f
        let rest ← ingestDocsList base fs
        pure (d ++ rest)) = _
      rw [hx, ih]
      simp [hx]

theorem enumFrom_map_fst_apply {α β : Type} (g : Nat → β) :
    ∀ (l : List α) (n : Nat),
      (List.enumFrom n l).map (fun p => g p.1) = (List.range' n l.length).map g := by
  intro l
  induction l with
  | nil => intro n; rfl
  | cons a t ih =>
    intro n
    rw [List.enumFrom, List.map_cons, List.length_cons, List.range'_succ, List.map_cons, ih]

theorem enum_map_fst_apply {α β : Type} (g : Nat → β) (l : List α) :
    l.enum.map (fun p => g p.1) = (List.range l.length).map g := by
  rw [List.enum, enumFrom_map_fst_apply, List.range_eq_range']

theorem processLine_eq_spec : ∀ ln : List Char, processLine ln = splitLineSpec ln
  | [] => rfl
  | [_] => rfl
  | [_, _] => rfl
  | c0 :: c1 :: c2 :: rest => by
    have hlen : 2 < (c0 :: c1 :: c2 :: rest).length := by simp
    unfold processLine splitLineSpec numberedLineCheck
    simp [hlen]

theorem ingestFile_of_error (base : String) (f : FileEntry) (e : String)
    (hfe : f.extracted = .error e) : ingestFile base f = some [] := by
  simp [ingestFile, hfe]

theorem ingestFile_of_blank (base : String) (f : FileEntry) (t : String)
    (hfe : f.extracted = .ok t) (hstrip : stripList t.data = []) :
    ingestFile base f = some [] := by
  simp [ingestFile, hfe, hstrip]

theorem ingest_skip (base : String) (pre post : List FileEntry) (f : FileEntry)
    (hf : ingestFile base f = some []) :
    ingestUploadedDocuments (pre ++ f :: post) base =
      ingestUploadedDocuments (pre ++ post) base := by
  unfold ingestUploadedDocuments
  rw [ingestDocsList_eq, ingestDocsList_eq]
  simp [List.flatMap_append, List.flatMap_cons, hf]

theorem ingestFile_ids (base : String) (f : FileEntry) :
    ((ingestFile base f).getD []).map (·.id) =
      (List.range (fileChunkCount f)).map (mkChunkId base (osBasename f.path)) := by
  rcases hfe : f.extracted with e | t
  · simp [ingestFile, hfe, fileChunkCount]
  · by_cases hstrip : (stripList t.data).isEmpty
    · simp [ingestFile, fileChunkCount, hfe, hstrip]
    · have h1 := chunkText_isSome t 1000 200 (by omega) (by omega)
      rcases hx : chunkText t 1000 200 with _ | cs
      · rw [hx] at h1; simp at h1
      · have hL : (ingestFile base f).getD [] = cs.enum.map fun p =>
            ({ id := mkChunkId base (osBasename f.path) p.1
               text := p.2
               metadata :=
                 { source := osBasename f.path
                   chunkIndex := p.1
                   totalChunks := cs.length
                   fileType := pyFileExt f.path } } : ChunkDoc) := by
          simp [ingestFile, hfe, hstrip, hx]
        have hc : fileChunkCount f = cs.length := by
          simp [fileChunkCount, hfe, hstrip, hx]
        rw [hL, hc, List.map_map]
        exact enum_map_fst_apply (mkChunkId base (osBasename f.path)) cs

theorem ingestFile_nodup_ids (base : String) (f : FileEntry) :
    (((ingestFile base f).getD []).map (·.id)).Nodup := by
  rw [ingestFile_ids]
  apply List.Nodup.map
  · intro i j hij
    exact (mkChunkId_inj hij).2
  · exact List.nodup_range _

theorem isPrefix_append_left {α : Type} (x : List α) {l1 l2 : List α} (h : l1 <+: l2) :
    x ++ l1 <+: x ++ l2 := by
  obtain ⟨t, ht⟩ := h
  exact ⟨t, by rw [← ht, List.append_assoc]⟩

theorem runRagPipeline_trace (ag : Agents) (q : String) :
    (runRagPipeline ag q).1 <+: [StageCall.retrieveC q, .reasonC q, .respondC q] := by
  rcases hr : ag.retrieve q with e | r
  · simp only [runRagPipeline, hr]
    exact ⟨[StageCall.reasonC q, .respondC q], rfl⟩
  · rcases hs : ag.reason q r with e | rs
    · simp only [runRagPipeline, hr, hs]
      exact ⟨[StageCall.respondC q], rfl⟩
    · rcases ht : ag.respond q (rs ++ formattingNote) with e | a
      · simp only [runRagPipeline, hr, hs, ht]
        exact ⟨[], rfl⟩
      · simp only [runRagPipeline, hr, hs, ht]
        exact ⟨[], rfl⟩

theorem runRagPipeline_trace_ok (ag : Agents) (q : String) (res : PipelineResult)
    (h : (runRagPipeline ag q).2 = .ok res) :
    (runRagPipeline ag q).1 = [StageCall.retrieveC q, .reasonC q, .respondC q] := by
  rcases hr : ag.retrieve q with e | r
  · simp only [runRagPipeline, hr] at h
    exact absurd h (by simp)
  · rcases hs : ag.reason q r with e | rs
    · simp only [runRagPipeline, hr, hs] at h
      exact absurd h (by simp)
    · rcases ht : ag.respond q (rs ++ formattingNote) with e | a
      · simp only [runRagPipeline, hr, hs, ht] at h
        exact absurd h (by simp)
      · simp only [runRagPipeline, hr, hs, ht]

theorem canonicalCalls_cons (q : String) (qs : List String) :
    canonicalCalls (q :: qs) =
      [StageCall.retrieveC q, .reasonC q, .respondC q] ++ canonicalCalls qs := by
  simp [canonicalCalls]

theorem multiLoop_trace (ag : Agents) :
    ∀ (qs : List String) (i : Nat), (multiLoop ag i qs).1 <+: canonicalCalls qs := by
  intro qs
  induction qs with
  | nil => intro i; exact List.nil_prefix
  | cons q qs ih =>
    intro i
    unfold multiLoop
    dsimp only
    rw [canonicalCalls_cons]
    rcases hr : (runRagPipeline ag q).2 with e | res
    · exact (runRagPipeline_trace ag q).trans (List.prefix_append _ _)
    · rw [runRagPipeline_trace_ok ag q res hr]
      exact isPrefix_append_left _ (ih (i + 1))

theorem reasonerBlocksLoop_eq (ps : List Passage) :
    ∀ k : Nat, reasonerBlocksLoop k ps =
      (List.range ps.length).map fun i =>
        "[Passage " ++ pyStr (k + i) ++ "]\n" ++ (ps.getD i ⟨"", ""⟩).text ++ "\n" := by
  induction ps with
  | nil => intro k; rfl
  | cons p t ih =>
    intro k
    rw [reasonerBlocksLoop, List.length_cons, List.range_succ_eq_map, List.map_cons,
      List.map_map, ih (k + 1)]
    congr 1
    apply List.map_congr_left
    intro a ha
    have harith : k + 1 + a = k + (a + 1) := by omega
    simp [Function.comp, harith]

theorem splitUserQuestions_eq_spec (text : String) :
    splitUserQuestions text =
      (((((splitOnChar '\n' text.data).map stripList).filter
        (fun l => !l.isEmpty)).filterMap splitLineSpec).map String.mk) := by
  unfold splitUserQuestions splitUserQuestionsL
  split
  · rename_i hempty
    have hnil : text.data = [] := by simpa using hempty
    rw [hnil]
    rfl
  · have hfun : processLine = splitLineSpec := funext processLine_eq_spec
    rw [hfun]

theorem chunkText_short (t : String) (c o : Nat) (h : t.data.length ≤ c) :
    chunkText t c o = some [t] := by
  unfold chunkText chunkTextL
  rw [if_pos h]
  have : String.mk t.data = t := by cases t; rfl
  simp [this]

theorem ingest_all_skipped (base : String) :
    ∀ files : List FileEntry, (∀ f ∈ files, ingestFile base f = some []) →
      ingestUploadedDocuments files base = some (0, []) := by
  intro files h
  unfold ingestUploadedDocuments
  rw [ingestDocsList_eq]
  have hnil : (files.flatMap fun f => (ingestFile base f).getD []) = [] := by
    induction files with
    | nil => rfl
    | cons f fs ih =>
      rw [List.flatMap_cons, h f (by simp), ih fun g hg => h g (by simp [hg])]
      rfl
  rw [hnil]
  rfl

theorem ingest_ids_eq (base : String) (files : List FileEntry) :
    (files.flatMap fun f => (ingestFile base f).getD []).map (·.id) =
      (files.flatMap fun f =>
        (List.range (fileChunkCount f)).map (mkChunkId base (osBasename f.path))) := by
  induction files with
  | nil => rfl
  | cons f fs ih =>
    rw [List.flatMap_cons, List.flatMap_cons, List.map_append, ih, ingestFile_ids]

theorem ingest_ids_nodup (base : String) (files : List FileEntry)
    (hnd : (files.map fun f => osBasename f.path).Nodup) :
    ((files.flatMap fun f =>
      (List.range (fileChunkCount f)).map (mkChunkId base (osBasename f.path)))).Nodup := by
  rw [List.nodup_flatMap]
  constructor
  · intro f _
    apply List.Nodup.map
    · intro i j hij
      exact (mkChunkId_inj hij).2
    · exact List.nodup_range _
  · have hp : files.Pairwise (fun f g => osBasename f.path ≠ osBasename g.path) := by
      have h2 := hnd
      unfold List.Nodup at h2
      rw [List.pairwise_map] at h2
      exact h2
    refine hp.imp ?_
    intro f g hne x hxf hxg
    rcases List.mem_map.mp hxf with ⟨i, _, hi⟩
    rcases List.mem_map.mp hxg with ⟨j, _, hj⟩
    exact hne (mkChunkId_inj (hi.trans hj.symm)).1

/-! ## Claim theorems -/

/-- C1: the claim (and spec §4.1) says a window that does not reach the end of
the text is truncated at the last `.` or line break exactly when that break
point lies more than `chunk_size/2` characters past the window's own start.
The code instead compares the chunk-relative `rfind` index with the absolute
threshold `start + chunk_size // 2`.  At `text = "abcdefghijklmnop.rst"`,
`chunk_size = 10`, `overlap = 2`, the second window is `[8, 18)` and its last
`.` sits at relative index `8 > 10/2`, so the claim demands the truncated
chunk `"ijklmnop."`; the code takes the hard cut `"ijklmnop.r"` because
`8 > 8 + 10/2` fails.  This theorem evaluates the embedded code at that
failing input, exhibiting the hard cut. -/
theorem c1_code_bug_eval :
    chunkText "abcdefghijklmnop.rst" 10 2 =
      some ["abcdefghij", "ijklmnop.r", ".rst"] ∧
    pyRfind (pySlice "abcdefghijklmnop.rst".data 8 18) '.' = 8 ∧
    (10 : Nat) / 2 < 8 ∧
    (chunkStep "abcdefghijklmnop.rst".data 10 8).2 = 18 := by decide

/-- C2 counterexample: for `T = " a "` (whose length is at most the default
`chunk_size`), `chunk_text` returns `[" a "]`, not the trimmed `["a"]` the
claim demands — the short-text path returns the text unmodified. -/
theorem c2_counterexample : chunkText " a " 1000 200 ≠ some [pyStrip " a "] := by decide

/-- C2 (amended): for every text `T` with `len(T) <= chunk_size`,
`chunk_text` returns exactly one chunk, and that chunk is `T` itself,
unmodified (no whitespace trimming happens on this path). -/
theorem c2_amended (t : String) (c o : Nat) (h : t.data.length ≤ c) :
    chunkText t c o = some [t] :=
  chunkText_short t c o h

/-- C2 witness: the amended theorem at the concrete input `" a "`. -/
theorem c2_witness : chunkText " a " 1000 200 = some [" a "] :=
  c2_amended " a " 1000 200 (by decide)

/-- C3 counterexample: the claim's rule (one or more digits followed by a
marker) demands `split("12. foo") = ["foo"]`, but the code inspects only the
second character, `'2'`, which is neither `.` nor `)` nor a space, so the
line is kept verbatim. -/
theorem c3_counterexample : splitUserQuestions "12. foo" ≠ ["foo"] := by decide

/-- C3 (amended): a line is treated as an explicitly numbered item exactly
when it is longer than two characters, starts with a digit, and its second
character is `.` or `)` — or its second character is a space followed by `-`
or `.`; for such lines all leading digits and then all leading marker
characters are stripped, the trimmed remainder is kept when non-empty and
dropped when empty; every other non-empty line is kept verbatim (trimmed).
The claim's concrete examples hold, and `split("12. foo")` keeps the line
verbatim. -/
theorem c3_amended :
    (∀ text : String, splitUserQuestions text =
      (((((splitOnChar '\n' text.data).map stripList).filter
        (fun l => !l.isEmpty)).filterMap splitLineSpec).map String.mk)) ∧
    splitUserQuestions "1. foo\n2. bar" = ["foo", "bar"] ∧
    splitUserQuestions "just one line" = ["just one line"] ∧
    splitUserQuestions "" = [] ∧
    splitUserQuestions "12. foo" = ["12. foo"] :=
  ⟨splitUserQuestions_eq_spec, by decide, by decide, by decide, by decide⟩

/-- C4 counterexample: the claim puts the passage blocks first, followed by
the question, followed by the instruction text.  In the prompt built for
question `"QQQ"` and the single passage `"PPP"`, each of `"QQQ"` and the
block `"[Passage 1]\nPPP"` occurs exactly once, and the question occurs
strictly before the passage block — so no passage block is followed by the
question. -/
theorem c4_counterexample :
    countOccur "QQQ".data (reasonPrompt "QQQ" [⟨"p1", "PPP"⟩]).data = 1 ∧
    countOccur "[Passage 1]\nPPP".data (reasonPrompt "QQQ" [⟨"p1", "PPP"⟩]).data = 1 ∧
    firstOccur "QQQ".data (reasonPrompt "QQQ" [⟨"p1", "PPP"⟩]).data <
      firstOccur "[Passage 1]\nPPP".data (reasonPrompt "QQQ" [⟨"p1", "PPP"⟩]).data := by
  decide

/-- C4 (amended): for every question and every sequence of passages the
Reasoner builds a single prompt consisting of the fixed instruction text,
then `Question: {question}`, then a `Passages:` section holding each passage
as a numbered `[Passage N]` block in input order (blocks joined by
newlines), then an `Output:` cue; with zero passages the prompt is still
built, with an empty passage section. -/
theorem c4_amended (q : String) (ps : List Passage) :
    reasonPrompt q ps =
      reasonerInstructionText ++ "Question: " ++ q ++ "\n\nPassages:\n" ++
        String.intercalate "\n" ((List.range ps.length).map fun i =>
          "[Passage " ++ pyStr (i + 1) ++ "]\n" ++ (ps.getD i ⟨"", ""⟩).text ++ "\n") ++
      "\n\nOutput:" := by
  unfold reasonPrompt reasonerContext
  rw [reasonerBlocksLoop_eq ps 1]
  have hmap : ((List.range ps.length).map fun i =>
      "[Passage " ++ pyStr (1 + i) ++ "]\n" ++ (ps.getD i ⟨"", ""⟩).text ++ "\n") =
      ((List.range ps.length).map fun i =>
        "[Passage " ++ pyStr (i + 1) ++ "]\n" ++ (ps.getD i ⟨"", ""⟩).text ++ "\n") := by
    apply List.map_congr_left
    intro a _
    rw [Nat.add_comm]
  rw [hmap]

/-- C5: a failure extracting any one file is caught inside ingestion, that
file is skipped and the rest of the batch is ingested exactly as if the
failing file were absent; and when every file either fails or strips to the
empty text, `ingest_uploaded_documents` returns a count of zero (and an
empty upsert batch) without raising. -/
theorem c5_confirmed (base : String) :
    (∀ (pre post : List FileEntry) (f : FileEntry) (e : String),
      f.extracted = .error e →
      ingestUploadedDocuments (pre ++ f :: post) base =
        ingestUploadedDocuments (pre ++ post) base) ∧
    (∀ files : List FileEntry,
      (∀ f ∈ files, (∃ e, f.extracted = .error e) ∨
        ∃ t, f.extracted = .ok t ∧ stripList t.data = []) →
      ingestUploadedDocuments files base = some (0, [])) := by
  constructor
  · intro pre post f e hf
    exact ingest_skip base pre post f (ingestFile_of_error base f e hf)
  · intro files h
    apply ingest_all_skipped base files
    intro f hf
    rcases h f hf with ⟨e, he⟩ | ⟨t, ht, hstrip⟩
    · exact ingestFile_of_error base f e he
    · exact ingestFile_of_blank base f t ht hstrip

/-- C5 witness: the confirmed theorem at concrete inputs — dropping the
failing `fileBad` from a batch leaves the result unchanged, and a batch of
only failing or blank files yields `(0, [])`. -/
theorem c5_witness :
    ingestUploadedDocuments [fileA, fileBad, fileC] "B" =
      ingestUploadedDocuments [fileA, fileC] "B" ∧
    ingestUploadedDocuments [fileBad, fileBlank] "B" = some (0, []) :=
  ⟨(c5_confirmed "B").1 [fileA] [fileC] fileBad "boom" rfl,
   (c5_confirmed "B").2 [fileBad, fileBlank] (by
    intro f hf
    rcases List.mem_cons.mp hf with h | h2
    · subst h; exact Or.inl ⟨"boom", rfl⟩
    · rcases List.mem_cons.mp h2 with h | h3
      · subst h; exact Or.inr ⟨"   ", rfl, by decide⟩
      · simp at h3)⟩

/-- C6 counterexample: two distinct paths with the same basename (`a/f.txt`
and `b/f.txt`) produce the identical chunk id `B_f.txt_0` within one batch,
so the claimed id uniqueness fails as stated. -/
theorem c6_counterexample :
    ¬ ((((ingestUploadedDocuments [fileA, fileB] "B").getD (0, [])).2.map
      (·.id)).Nodup) := by decide

/-- C6 (amended): provided the files' basenames are pairwise distinct, each
chunk id is deterministically `{base_id}_{source_name}_{index}`, the ids are
unique within the batch, and the whole batch is handed to the store in one
upsert whose repetition leaves the store exactly as a single application —
so ingesting the same batch twice yields the same final store state as
ingesting it once. -/
theorem c6_amended (files : List FileEntry) (base : String) (store : Store)
    (hnd : (files.map fun f => osBasename f.path).Nodup) :
    ∃ docs : List ChunkDoc,
      ingestUploadedDocuments files base = some (docs.length, docs) ∧
      docs.map (·.id) = (files.flatMap fun f =>
        (List.range (fileChunkCount f)).map (mkChunkId base (osBasename f.path))) ∧
      (docs.map (·.id)).Nodup ∧
      applyUpsert (applyUpsert store docs) docs = applyUpsert store docs := by
  refine ⟨files.flatMap fun f => (ingestFile base f).getD [], ?_, ?_, ?_, ?_⟩
  · unfold ingestUploadedDocuments
    rw [ingestDocsList_eq]
    rfl
  · exact ingest_ids_eq base files
  · rw [ingest_ids_eq base files]
    exact ingest_ids_nodup base files hnd
  · exact applyUpsert_idem store _

/-- C6 witness: the amended theorem at a concrete batch with distinct
basenames and the empty store. -/
theorem c6_witness :
    ∃ docs : List ChunkDoc,
      ingestUploadedDocuments [fileA, fileC] "B" = some (docs.length, docs) ∧
      docs.map (·.id) = ([fileA, fileC].flatMap fun f =>
        (List.range (fileChunkCount f)).map (mkChunkId "B" (osBasename f.path))) ∧
      (docs.map (·.id)).Nodup ∧
      applyUpsert (applyUpsert emptyStore docs) docs = applyUpsert emptyStore docs :=
  c6_amended [fileA, fileC] "B" emptyStore (by decide)

/-- C7: for every text longer than `chunk_size`, every chunk the loop returns
has length at most `chunk_size`; the chunks are exactly the stripped slices
of the recorded windows; and consecutive windows obey the step rule — the
next window starts `overlap` characters before the previous window's final
end, so at untruncated boundaries (where the end is the raw `start +
chunk_size`) the next window starts `overlap` characters before that raw
end.  The hypothesis `overlap ≤ chunk_size / 2` keeps every Python position
nonnegative, which is where this natural-number embedding coincides with the
source (it covers the defaults 1000/200). -/
theorem c7_confirmed (text : List Char) (c o : Nat) (ho : o ≤ c / 2)
    (hlen : c < text.length) (cs : List (List Char)) (ws : List (Nat × Nat))
    (hcs : chunkTextL text c o = some cs) (hws : chunkWindows text c o = some ws) :
    (∀ ch ∈ cs, ch.length ≤ c) ∧
    cs = ws.map (fun p => stripList (pySlice text p.1 p.2)) ∧
    (∀ i : Nat, (h : i + 1 < ws.length) →
      (ws.get ⟨i + 1, h⟩).1 = (ws.get ⟨i, Nat.lt_of_succ_lt h⟩).2 - o ∧
      ((ws.get ⟨i, Nat.lt_of_succ_lt h⟩).2 = (ws.get ⟨i, Nat.lt_of_succ_lt h⟩).1 + c →
        (ws.get ⟨i + 1, h⟩).1 + o =
          (ws.get ⟨i, Nat.lt_of_succ_lt h⟩).1 + c)) := by
  have hmap : cs = ws.map (fun p => stripList (pySlice text p.1 p.2)) := by
    have h1 := chunkTextL_eq_windows text c o hlen
    rw [hcs, hws] at h1
    simpa using h1
  obtain ⟨hmem, _, hchain⟩ :=
    chunkWindowsLoop_invariant text c o (text.length + 1) 0 ws hws
  refine ⟨?_, hmap, ?_⟩
  · intro ch hch
    rw [hmap] at hch
    rcases List.mem_map.mp hch with ⟨p, hp, hpe⟩
    have h2 := (hmem p hp).2
    have h3 := chunkStep_fst_length_le text c p.1
    rw [chunkStep_fst_eq, ← h2] at h3
    rw [← hpe]
    exact h3
  · intro i h
    have hrel := List.chain'_iff_get.mp hchain i (by omega)
    constructor
    · exact hrel
    · intro huntrunc
      have hor : o ≤ (ws.get ⟨i, Nat.lt_of_succ_lt h⟩).2 := by
        rw [huntrunc]
        omega
      rw [hrel]
      omega

/-- C7 witness: the confirmed theorem at the concrete input
`"abcdefghijklmnop.rst"`, `chunk_size = 10`, `overlap = 2`, whose loop uses
the windows `(0,10)`, `(8,18)`, `(16,26)`. -/
theorem c7_witness :
    (∀ ch ∈ ["abcdefghij".data, "ijklmnop.r".data, ".rst".data], ch.length ≤ 10) ∧
    ["abcdefghij".data, "ijklmnop.r".data, ".rst".data] =
      ([(0, 10), (8, 18), (16, 26)].map
        (fun p => stripList (pySlice "abcdefghijklmnop.rst".data p.1 p.2))) ∧
    (∀ i : Nat, (h : i + 1 < ([(0, 10), (8, 18), (16, 26)] :
        List (Nat × Nat)).length) →
      (([(0, 10), (8, 18), (16, 26)] : List (Nat × Nat)).get ⟨i + 1, h⟩).1 =
        (([(0, 10), (8, 18), (16, 26)] : List (Nat × Nat)).get
          ⟨i, Nat.lt_of_succ_lt h⟩).2 - 2 ∧
      ((([(0, 10), (8, 18), (16, 26)] : List (Nat × Nat)).get
          ⟨i, Nat.lt_of_succ_lt h⟩).2 =
        (([(0, 10), (8, 18), (16, 26)] : List (Nat × Nat)).get
          ⟨i, Nat.lt_of_succ_lt h⟩).1 + 10 →
        (([(0, 10), (8, 18), (16, 26)] : List (Nat × Nat)).get ⟨i + 1, h⟩).1 + 2 =
          (([(0, 10), (8, 18), (16, 26)] : List (Nat × Nat)).get
            ⟨i, Nat.lt_of_succ_lt h⟩).1 + 10)) :=
  c7_confirmed "abcdefghijklmnop.rst".data 10 2 (by decide) (by decide)
    ["abcdefghij".data, "ijklmnop.r".data, ".rst".data]
    [(0, 10), (8, 18), (16, 26)] (by decide) (by decide)

/-- C8: for every multi-sub-question submission in which some stage raised,
the send handler leaves the chat with only the renumbered user message
appended — no assistant message carrying the already-computed answers of
earlier sub-questions is produced — and the stage calls actually made form a
prefix of the canonical `retrieve, reason, respond` sequence taken
sub-question by sub-question in order, so no stage is invoked a second time
for the same position (no retry). -/
theorem c8_confirmed (ag : Agents) (question : String) (messages : List Message)
    (hmulti : 2 ≤ (splitUserQuestions question).length)
    (herr : (processSend ag question messages).2.2 ≠ none) :
    (processSend ag question messages).2.1 =
      messages ++ [⟨"user", mkNumberedUserContent (splitUserQuestions question)⟩] ∧
    (processSend ag question messages).1 <+:
      canonicalCalls (splitUserQuestions question) := by
  have hle : ¬ ((splitUserQuestions question).length ≤ 1) := by omega
  rcases hml : (multiLoop ag 1 (splitUserQuestions question)).2 with e | pieces
  · have heval : processSend ag question messages =
        ((multiLoop ag 1 (splitUserQuestions question)).1,
          messages ++ [⟨"user", mkNumberedUserContent (splitUserQuestions question)⟩],
          some ("❌ Error processing question: " ++ e)) := by
      unfold processSend
      dsimp only
      rw [if_neg hle, hml]
    rw [heval]
    exact ⟨rfl, multiLoop_trace ag _ 1⟩
  · exfalso
    apply herr
    unfold processSend
    dsimp only
    rw [if_neg hle, hml]

/-- C8 witness: the confirmed theorem for stub agents whose Responder raises
on sub-question 2 of 2 of `"1. foo\n2. bar"`, starting from an empty chat. -/
theorem c8_witness :
    (processSend agentsFailBar "1. foo\n2. bar" []).2.1 =
      [] ++ [⟨"user", mkNumberedUserContent (splitUserQuestions "1. foo\n2. bar")⟩] ∧
    (processSend agentsFailBar "1. foo\n2. bar" []).1 <+:
      canonicalCalls (splitUserQuestions "1. foo\n2. bar") :=
  c8_confirmed agentsFailBar "1. foo\n2. bar" [] (by decide) (by decide)

/-- C9 counterexample: at `text = "ab      cd"`, `chunk_size = 4`,
`overlap = 1`, the window `[3, 7)` contains only spaces, so the appended
chunk strips to the empty string — `chunk_text` does yield an empty chunk,
contradicting the claim. -/
theorem c9_counterexample :
    ¬ (∀ ch ∈ (chunkText "ab      cd" 4 1).getD [], ch ≠ "") := by decide

/-- C9 (amended): every chunk appended by `chunk_text`'s sliding-window loop
is trimmed of leading and trailing whitespace, but may be empty (a window of
pure whitespace); ingestion skips a file exactly when its whole extracted
text strips to empty, and otherwise upserts one record per `chunk_text`
chunk with the chunk as its text, unfiltered — so empty chunks reach the
upsert batch. -/
theorem c9_amended :
    (∀ (text : List Char) (c o : Nat) (cs : List (List Char)),
      c < text.length → chunkTextL text c o = some cs →
      ∀ ch ∈ cs, stripList ch = ch) ∧
    (∀ (p t base : String), stripList t.data = [] →
      ingestUploadedDocuments [⟨p, .ok t⟩] base = some (0, [])) ∧
    (∀ (p t base : String) (cs : List String),
      chunkText t 1000 200 = some cs → stripList t.data ≠ [] →
      (ingestUploadedDocuments [⟨p, .ok t⟩] base).map (fun r => r.2.map (·.text)) =
        some cs) := by
  refine ⟨?_, ?_, ?_⟩
  · intro text c o cs hlen hcs ch hch
    have h1 := chunkTextL_eq_windows text c o hlen
    rw [hcs] at h1
    rcases hws : chunkWindows text c o with _ | ws
    · rw [hws] at h1; simp at h1
    · rw [hws] at h1
      simp only [Option.map_some', Option.some.injEq] at h1
      rw [h1] at hch
      rcases List.mem_map.mp hch with ⟨p, _, hpe⟩
      rw [← hpe]
      exact stripList_idem _
  · intro p t base hstrip
    apply ingest_all_skipped
    intro f hf
    rcases List.mem_cons.mp hf with h | h
    · subst h
      exact ingestFile_of_blank base _ t rfl hstrip
    · simp at h
  · intro p t base cs hx hne
    have hfe : ingestFile base ⟨p, .ok t⟩ =
        some (cs.enum.map fun pr =>
          ({ id := mkChunkId base (osBasename p) pr.1
             text := pr.2
             metadata :=
               { source := osBasename p
                 chunkIndex := pr.1
                 totalChunks := cs.length
                 fileType := pyFileExt p } } : ChunkDoc)) := by
      have hne2 : ¬ (stripList t.data).isEmpty := by
        simpa [List.isEmpty_iff] using hne
      simp [ingestFile, hne2, hx]
    unfold ingestUploadedDocuments
    rw [ingestDocsList_eq]
    simp only [List.flatMap_cons, List.flatMap_nil, hfe, Option.getD_some,
      List.append_nil, Option.map_some', Option.some.injEq, List.map_map]
    show (List.enumFrom 0 cs).map Prod.snd = cs
    exact List.enumFrom_map_snd 0 cs

/-- C9 witness: the amended theorem's three parts at concrete inputs — the
chunks of `"ab      cd"` (4, 1) are strip-fixed, a whitespace-only file is
skipped, and a healthy file's upsert batch carries exactly its chunks. -/
theorem c9_witness :
    (∀ ch ∈ ["ab".data, [], "cd".data, "d".data], stripList ch = ch) ∧
    ingestUploadedDocuments [⟨"x/e.txt", .ok "   "⟩] "B" = some (0, []) ∧
    (ingestUploadedDocuments [⟨"a/f.txt", .ok "hello"⟩] "B").map
      (fun r => r.2.map (·.text)) = some ["hello"] :=
  ⟨c9_amended.1 "ab      cd".data 4 1 ["ab".data, [], "cd".data, "d".data]
      (by decide) (by decide),
   c9_amended.2.1 "x/e.txt" "   " "B" (by decide),
   c9_amended.2.2 "a/f.txt" "hello" "B" ["hello"] (by decide) (by decide)⟩

/-- C10 counterexample: with `chunk_size = 0` and `overlap = 0` (which
satisfies `overlap ≤ chunk_size // 2`), on the text `"a"` the loop body
leaves the scan position at `0`: the position does not strictly increase and
the loop never terminates (the fuel-bounded embedding returns `none`). -/
theorem c10_counterexample :
    (chunkStep "a".data 0 0).2 = 0 ∧ chunkTextL "a".data 0 0 = none := by decide

/-- C10 (amended): `chunk_text` terminates for every input text whenever
`1 ≤ chunk_size` and `overlap ≤ chunk_size / 2`: the scan position strictly
increases on every loop iteration (both on the hard-cut and on the
boundary-snap path), and the fuel-bounded loop finishes within
`len(text) + 1` iterations. -/
theorem c10_amended (text : List Char) (c o : Nat) (hc : 1 ≤ c) (ho : o ≤ c / 2) :
    (chunkTextL text c o).isSome ∧ ∀ s : Nat, s < (chunkStep text c s).2 - o := by
  refine ⟨chunkTextL_isSome text c o hc ho, ?_⟩
  intro s
  have h1 := chunkStep_snd_gt text c s hc
  omega

/-- C10 witness: the amended theorem at `"abc"`, `chunk_size = 2`,
`overlap = 1`. -/
theorem c10_witness :
    (chunkTextL "abc".data 2 1).isSome ∧
    ∀ s : Nat, s < (chunkStep "abc".data 2 s).2 - 1 :=
  c10_amended "abc".data 2 1 (by decide) (by decide)

end RagSpec
